import Mathlib

/-!
Verification development for the openclaw-session-labeler label pipeline.

Strings are modelled as `List Char` (JS strings; `.length`, `.slice`,
`split`, `join` act on code units, modelled here as characters).  Each
definition is a shallow embedding of the correspondingly named function in
the TypeScript sources; file-system effects are modelled as explicit state
(`Option` of the parsed file content) or as operation traces.
-/

namespace OpenClawLabeler

/-- JS strings, modelled as lists of characters. -/
abbrev Str := List Char

/-- Character data of a Lean string literal. -/
def s (x : String) : Str := x.data

/-- Whitespace class of JS regex `\s` and of `String.prototype.trim`. -/
def jsWs (c : Char) : Bool :=
  ([9, 10, 11, 12, 13, 32, 0xa0, 0x1680, 0x2000, 0x2001, 0x2002, 0x2003,
    0x2004, 0x2005, 0x2006, 0x2007, 0x2008, 0x2009, 0x200a, 0x2028, 0x2029,
    0x202f, 0x205f, 0x3000, 0xfeff] : List Nat).contains c.toNat

/-- Drop leading JS whitespace (left half of `trim`). -/
def trimStart (l : Str) : Str := l.dropWhile jsWs

/-- Drop trailing JS whitespace (JS `trimEnd`). -/
def trimEnd (l : Str) : Str := (l.reverse.dropWhile jsWs).reverse

/-- JS `String.prototype.trim`. -/
def jsTrim (l : Str) : Str := trimEnd (trimStart l)

/-- Does the string end in a JS whitespace character? -/
def endsWs (l : Str) : Bool :=
  match l.getLast? with
  | some c => jsWs c
  | none => false

/-- Worker for `splitWs`.  `gap = true` means the previous character was
whitespace and further whitespace of the same run is skipped; `cur` is the
reversed accumulator of the token being read. -/
def splitWsGo (gap : Bool) (cur : Str) : Str → List Str
  | [] => [cur.reverse]
  | c :: rest =>
    if jsWs c then
      if gap then splitWsGo true [] rest
      else cur.reverse :: splitWsGo true [] rest
    else splitWsGo false (c :: cur) rest

/-- JS `str.split(/\s+/)`: split on maximal whitespace runs.  Leading
(resp. trailing) whitespace yields a leading (resp. trailing) empty token;
`"".split(/\s+/)` is `[""]`. -/
def splitWs (l : Str) : List Str := splitWsGo false [] l

/-- JS `Array.prototype.join` with a one-character separator. -/
def joinWith (sep : Char) : List Str → Str
  | [] => []
  | [w] => w
  | w :: ws => w ++ sep :: joinWith sep ws

/-- JS `arr.join(" ")`. -/
def joinSp (ws : List Str) : Str := joinWith ' ' ws

/-- ASCII lowercasing, modelling `String.prototype.toLowerCase` on the
ASCII range (all dictionary keys below are ASCII). -/
def lowerStr (w : Str) : Str := w.map Char.toLower

/-- First-match association lookup, modelling JS object property access
on string-keyed records. -/
def objGet {α : Type} : List (Str × α) → Str → Option α
  | [], _ => none
  | (k', v) :: rest, k => if k' = k then some v else objGet rest k

/-- JS object property assignment `obj[k] = v`: replace the first entry in
place, or append a new entry at the end. -/
def objSet {α : Type} : List (Str × α) → Str → α → List (Str × α)
  | [], k, v => [(k, v)]
  | (k', v') :: rest, k, v =>
    if k' = k then (k, v) :: rest else (k', v') :: objSet rest k v

/-! ## Length Compressor (src/enforce-length.ts) -/

/-- `STOP_WORDS` of src/enforce-length.ts. -/
def STOP_WORDS : List Str :=
  [s "a", s "an", s "the", s "and", s "of", s "to", s "for", s "with",
   s "on", s "in", s "is", s "are", s "was", s "be", s "by", s "at",
   s "or", s "its"]

/-- `ABBREVIATIONS` of src/enforce-length.ts. -/
def ABBREVIATIONS : List (Str × Str) :=
  [(s "configuration", s "Config"), (s "documentation", s "Docs"),
   (s "performance", s "Perf"), (s "implementation", s "Impl"),
   (s "integration", s "Integ"), (s "development", s "Dev"),
   (s "application", s "App"), (s "environment", s "Env"),
   (s "infrastructure", s "Infra"), (s "authentication", s "Auth"),
   (s "authorization", s "Authz"), (s "management", s "Mgmt"),
   (s "deployment", s "Deploy"), (s "repository", s "Repo"),
   (s "notification", s "Notif"), (s "woocommerce", s "Woo"),
   (s "kubernetes", s "K8s"), (s "database", s "DB"),
   (s "javascript", s "JS"), (s "typescript", s "TS"),
   (s "refactoring", s "Refactor"), (s "troubleshooting", s "Debug"),
   (s "optimization", s "Optim")]

/-- Step-3 comparator: word length descending; the source relies on the
stability of JS `sort`, which on the index-tagged pairs is equivalent to
this total order (length descending, then original index ascending). -/
def lenOrd (a b : Nat × Str) : Prop :=
  b.2.length < a.2.length ∨ (a.2.length = b.2.length ∧ a.1 ≤ b.1)

instance : DecidableRel lenOrd := fun a b => by unfold lenOrd; infer_instance

/-- Re-sorting selected words back into original textual order
(`sort((a, b) => a.index - b.index)`; indices are distinct). -/
def idxOrd (a b : Nat × Str) : Prop := a.1 ≤ b.1

instance : DecidableRel idxOrd := fun a b => by unfold idxOrd; infer_instance

/-- One candidate of step 3: keep the `keep` longest words, restored to
original order and joined with spaces. -/
def keepSelect (indexed : List (Nat × Str)) (keep : Nat) : Str :=
  joinSp (((indexed.take keep).insertionSort idxOrd).map Prod.snd)

/-- The `for (let keep = …; keep >= 1; keep--)` loop of step 3: first
`keep` whose selection fits, if any. -/
def tryKeep (indexed : List (Nat × Str)) (maxChars : Nat) : Nat → Option Str
  | 0 => none
  | k + 1 =>
    let sel := keepSelect indexed (k + 1)
    if sel.length ≤ maxChars then some sel else tryKeep indexed maxChars k

/-- `enforceMaxLength` of src/enforce-length.ts. -/
def enforceMaxLength (label : Str) (maxChars : Nat) : Str :=
  if label = [] then []
  else if label.length ≤ maxChars then label
  else
    let words0 := splitWs label
    let withoutStops := words0.filter (fun w => !decide (lowerStr w ∈ STOP_WORDS))
    let words1 := if 0 < withoutStops.length then withoutStops else words0
    let cand1 := joinSp words1
    if cand1.length ≤ maxChars then cand1
    else
      let words2 := words1.map (fun w =>
        match objGet ABBREVIATIONS (lowerStr w) with
        | some a => a
        | none => w)
      let cand2 := joinSp words2
      if cand2.length ≤ maxChars then cand2
      else
        let indexed := (words2.enum).insertionSort lenOrd
        match tryKeep indexed maxChars (min 4 words2.length) with
        | some r => r
        | none => trimEnd (cand2.take maxChars)

/-! ## Normalizer (src/sanitize.ts) -/

/-- Prepend a character onto the first line of a non-empty line list. -/
def consLine (c : Char) : List Str → List Str
  | [] => [[c]]
  | l :: ls => (c :: l) :: ls

/-- JS `raw.split(/\r?\n/)`: delimiters are `\n` or `\r\n`; a lone `\r`
stays inside its line. -/
def splitLines : Str → List Str
  | [] => [[]]
  | c :: rest =>
    if c = '\n' then [] :: splitLines rest
    else if c = '\r' then
      match rest with
      | '\n' :: rest2 => [] :: splitLines rest2
      | [] => consLine c (splitLines [])
      | c2 :: rest2 => consLine c (splitLines (c2 :: rest2))
    else consLine c (splitLines rest)

/-- `.find((line) => line.trim() !== "") ?? ""`. -/
def firstNonBlankLine (raw : Str) : Str :=
  ((splitLines raw).find? (fun l => !decide (jsTrim l = []))).getD []

/-- `label.replace(/^[-*•]\s+/, "")`: one leading list marker followed by
at least one whitespace character; the whole whitespace run is consumed. -/
def stripBullet (l : Str) : Str :=
  match l with
  | c :: c2 :: rest =>
    if (c = '-' || c = '*' || c = '•') && jsWs c2 then
      (c2 :: rest).dropWhile jsWs
    else l
  | _ => l

/-- Worker for `collapseRuns`: `inRun` records that the previous
character belonged to the run being collapsed. -/
def collapseRunsGo (p : Char → Bool) (rep : Char) (inRun : Bool) : Str → Str
  | [] => []
  | c :: rest =>
    if p c then
      if inRun then collapseRunsGo p rep true rest
      else rep :: collapseRunsGo p rep true rest
    else c :: collapseRunsGo p rep false rest

/-- Collapse every maximal run of `p`-characters to the single character
`rep` (used for `/ {2,}/g → " "` and `/[\n\r]+/g → " "`; a run of length
one is also replaced, which for spaces is the identity). -/
def collapseRuns (p : Char → Bool) (rep : Char) (l : Str) : Str :=
  collapseRunsGo p rep false l

/-- `label.replace(/ {2,}/g, " ")` (only space characters). -/
def collapseSpaces (l : Str) : Str := collapseRuns (fun c => c = ' ') ' ' l

/-- Quote characters stripped by `/^["'`]+|["'`]+$/g`. -/
def isQuote (c : Char) : Bool := c = '"' || c = '\'' || c = '\x60'

/-- `label.replace(/^["'`]+|["'`]+$/g, "")`: ALL leading and ALL trailing
quote characters are removed, each end independently. -/
def stripQuotes (l : Str) : Str :=
  ((l.dropWhile isQuote).reverse.dropWhile isQuote).reverse

/-- `label.replace(/^\*{1,2}|\*{1,2}$/g, "")`: up to two leading and up to
two trailing asterisks are removed, each end independently. -/
def stripBold (l : Str) : Str :=
  let l1 := l.drop (min 2 (l.takeWhile (fun c => c = '*')).length)
  let r := l1.reverse
  (r.drop (min 2 (r.takeWhile (fun c => c = '*')).length)).reverse

/-- Trailing punctuation set of `/[.,;:!?]$/`. -/
def isPunct (c : Char) : Bool :=
  c = '.' || c = ',' || c = ';' || c = ':' || c = '!' || c = '?'

/-- `label.replace(/[.,;:!?]$/, "")`: at most one trailing punctuation
character. -/
def stripTrailingPunct (l : Str) : Str :=
  match l.reverse with
  | c :: rest => if isPunct c then rest.reverse else l
  | [] => l

/-- `sanitize` of src/sanitize.ts. -/
def sanitize (raw : Str) : Str :=
  if raw = [] then []
  else
    let label1 := jsTrim (firstNonBlankLine raw)
    if label1 = [] then []
    else
      let l2 := stripBullet label1
      let l3 := collapseSpaces (l2.map (fun c => if c = '\t' then ' ' else c))
      let l4 := jsTrim (stripBold (stripQuotes l3))
      jsTrim (stripTrailingPunct l4)

/-! ## Label Synthesizer and Frequency Fallback Labeler (src/labeler.ts,
src/prompt.ts) -/

/-- Input to the labeler (`LabelerInput` of src/types.ts). -/
structure LabelerInput where
  requests : List Str
  workspace_name : Option Str := none
  max_chars : Nat
deriving DecidableEq

/-- Modelled from the spec: the shared stop-word list of `src/stop-words.ts`
is not among the sources (only its import in src/labeler.ts and the
CHANGELOG entry are); per spec §4.3 it is broader than the Compressor's
set and includes conversational filler such as "help", "need", "please". -/
def LABELER_STOP_WORDS : List Str :=
  STOP_WORDS ++ [s "help", s "need", s "please", s "want", s "make",
   s "like", s "just", s "this", s "that", s "what", s "when", s "have",
   s "there", s "about", s "would", s "could", s "should", s "some",
   s "thanks", s "thank", s "here", s "from", s "into", s "also"]

/-- `w.replace(/[^a-zA-Z0-9]/g, "")` keeps exactly these characters. -/
def isAlnum (c : Char) : Bool :=
  ('a' ≤ c && c ≤ 'z') || ('A' ≤ c && c ≤ 'Z') || ('0' ≤ c && c ≤ '9')

/-- Frequency counting with a JS `Map`: first insertion fixes the entry's
position, later hits bump the count in place. -/
def bump : List (Str × Nat) → Str → List (Str × Nat)
  | [], k => [(k, 1)]
  | (k', n) :: rest, k =>
    if k' = k then (k', n + 1) :: rest else (k', n) :: bump rest k

/-- `[...freq.entries()]` after inserting the lowercased words in order. -/
def countFreq (ws : List Str) : List (Str × Nat) :=
  ws.foldl (fun m w => bump m (lowerStr w)) []

/-- Ranking comparator of `heuristicLabel`: frequency descending, then
token length descending; ties keep Map insertion order (JS stable sort,
matched by `insertionSort`'s stability). -/
def freqOrd (a b : Str × Nat) : Prop :=
  b.2 < a.2 ∨ (a.2 = b.2 ∧ b.1.length ≤ a.1.length)

instance : DecidableRel freqOrd := fun a b => by unfold freqOrd; infer_instance

/-- `w.charAt(0).toUpperCase() + w.slice(1)` (ASCII model of
`toUpperCase`). -/
def titleCase : Str → Str
  | [] => []
  | c :: rest => c.toUpper :: rest

/-- `FALLBACK_LABEL` of src/labeler.ts. -/
def FALLBACK_LABEL : Str := s "General"

/-- `heuristicLabel` of src/labeler.ts. -/
def heuristicLabel (input : LabelerInput) : Str :=
  let words := ((splitWs (joinSp input.requests)).map
      (fun w => w.filter isAlnum)).filter
      (fun w => decide (3 < w.length) &&
        !decide (lowerStr w ∈ LABELER_STOP_WORDS))
  let ranked := (countFreq words).insertionSort freqOrd
  let topWords := (ranked.take 3).map (fun p => titleCase p.1)
  let label := joinSp topWords
  if label = [] then FALLBACK_LABEL
  else
    let r := enforceMaxLength label input.max_chars
    if r = [] then FALLBACK_LABEL else r

/-- `truncateRequest` of src/prompt.ts. -/
def truncateRequest (request : Str) (maxLen : Nat := 200) : Str :=
  let oneLine := jsTrim (collapseRuns (fun c => c = '\n' || c = '\r') ' ' request)
  if oneLine.length ≤ maxLen then oneLine
  else oneLine.take (maxLen - 3) ++ s "..."

/-- The fixed system prompt of `buildPrompt` (src/prompt.ts), with the
character budget interpolated. -/
def promptSystem (maxChars : Nat) : Str :=
  s "You generate a short session label that captures what the conversation is about.\n\nRules:\n- Output ONE label only, plain text.\n- Maximum " ++
  (toString maxChars).data ++
  s " characters.\n- 2-5 words. Prefer concrete nouns over verbs.\n- No quotes. No trailing period or punctuation.\n- Ignore greetings, pleasantries, and filler.\n- If the requests cover multiple topics, pick the dominant one.\n- Use title case.\n\nExamples of good labels:\n- Stripe Webhook Setup\n- React Auth Flow\n- K8s Deploy Pipeline\n- Newsletter Email Draft\n- CSV Import Bugfix\n- Logo Color Variants\n- API Rate Limiting\n- Docker Compose Config\n- Onboarding Flow UX\n- Budget Tracker App\n- Git Merge Conflict\n- PDF Invoice Generator"

/-- `buildPrompt` of src/prompt.ts: system and user message. -/
def buildPrompt (input : LabelerInput) : Str × Str :=
  let workspaceLine :=
    match input.workspace_name with
    | some n => s "Workspace: " ++ n ++ s "\n\n"
    | none => []
  let requestLines := joinWith '\n'
    (input.requests.enum.map
      (fun p => (toString (p.1 + 1)).data ++ s ") " ++ truncateRequest p.2))
  (promptSystem input.max_chars,
   workspaceLine ++ s "User requests:\n" ++ requestLines ++
     s "\n\nReturn only the label.")

/-- `generateLabel` of src/labeler.ts.  The LLM client's `complete` is
modelled as a function from the prompt to `Except`: `Except.error`
is a rejected promise (caught by the `try/catch`), `Except.ok` a raw
completion. -/
def generateLabel (llm : Str → Except Str Str) (input : LabelerInput) : Str :=
  let p := buildPrompt input
  match llm (p.1 ++ s "\n\n" ++ p.2) with
  | Except.error _ => heuristicLabel input
  | Except.ok raw =>
    let label := enforceMaxLength (sanitize raw) input.max_chars
    if label = [] then heuristicLabel input else label

/-! ## Durable label store (src/labels-store.ts, src/session-json-store.ts)

File contents are modelled at the parsed level: a file holds an
(insertion-ordered) string-keyed record, `none` standing for an absent or
unparseable file (both make `readLabels` return `{}` via its `catch`).
JSON serialization is injective on this representation, so content-level
claims are unaffected by the encoding. -/

/-- `label_source` values of the `SessionLabel` type (src/types.ts). -/
inductive LabelSource where
  | auto
  | manual
deriving DecidableEq, Repr

/-- `SessionLabel` of src/types.ts. -/
structure SessionLabel where
  label : Str
  label_source : LabelSource
  label_turn : Nat
  label_version : Str
  label_updated_at : Str
deriving DecidableEq, Repr

/-- `LabelsMap` of src/labels-store.ts (a JSON object, insertion
ordered). -/
abbrev LMap := List (Str × SessionLabel)

/-- `readLabels`: parse the labels file, `{}` when absent/unparseable. -/
def readLabels (file : Option LMap) : LMap := file.getD []

/-- `getLabel` of src/labels-store.ts. -/
def getLabel (file : Option LMap) (sessionKey : Str) : Option SessionLabel :=
  objGet (readLabels file) sessionKey

/-- `setLabel` of src/labels-store.ts: read-modify-write of the whole
mapping (state-level effect of the uninterrupted call). -/
def setLabel (file : Option LMap) (sessionKey : Str) (label : SessionLabel) :
    Option LMap :=
  some (objSet (readLabels file) sessionKey label)

/-! ### File-system operation traces for the write discipline -/

/-- One file-system operation issued by a store write. -/
inductive FsOp (γ : Type) where
  | mkdirP (dir : Str)
  | writeFile (path : Str) (content : γ)
  | rename (src dst : Str)
deriving DecidableEq

/-- Is this operation a rename? -/
def FsOp.isRename {γ : Type} : FsOp γ → Bool
  | FsOp.rename _ _ => true
  | _ => false

/-- Node `path.dirname` (posix), as used via `dirname(labelsPath)`. -/
def dirname (p : Str) : Str :=
  let rest := p.take (p.length - (p.reverse.takeWhile (fun c => !(c = '/'))).length)
  let rest2 := (rest.reverse.dropWhile (fun c => c = '/')).reverse
  if rest2 = [] then (if rest = [] then s "." else s "/") else rest2

/-- Trace of `writeLabels` (src/labels-store.ts): `mkdir -p` on the parent
directory, then a single direct `writeFile` of the serialized mapping onto
the target path. -/
def writeLabels (labelsPath : Str) (labels : LMap) : List (FsOp LMap) :=
  [FsOp.mkdirP (dirname labelsPath), FsOp.writeFile labelsPath labels]

/-! ### sessions.json store (src/session-json-store.ts) -/

/-- A `sessions.json` entry (`Record<string, unknown>`): the fields the
handler and store read or write; unknown extra fields are outside the
model (the `...entry` spread preserves them unchanged). -/
structure SessionEntry where
  sessionId : Option Str := none
  sessionFile : Option Str := none
  label : Option Str := none
  label_source : Option Str := none
  label_turn : Option Nat := none
  label_version : Option Str := none
  label_updated_at : Option Str := none
deriving DecidableEq, Repr

instance : Inhabited SessionEntry := ⟨{}⟩

/-- `SessionsStore` of src/session-json-store.ts. -/
abbrev SMap := List (Str × SessionEntry)

/-- `readSessionsStore`: `{}` when absent/unparseable. -/
def readSessionsStore (file : Option SMap) : SMap := file.getD []

/-- Serialization of `label_source` into the stored JSON string. -/
def sourceStr : LabelSource → Str
  | LabelSource.auto => s "auto"
  | LabelSource.manual => s "manual"

/-- `{ ...entry, label: …, label_source: …, … }` as written by both
session-store setters. -/
def mergeLabel (e : SessionEntry) (v : SessionLabel) : SessionEntry :=
  { e with
    label := some v.label
    label_source := some (sourceStr v.label_source)
    label_turn := some v.label_turn
    label_version := some v.label_version
    label_updated_at := some v.label_updated_at }

/-- Trace of `writeSessionsStore` (src/session-json-store.ts): write the
full serialized store to a freshly named temporary file
`path + "." + randomUUID() + ".tmp"` in the same directory, then rename it
over the target (the UUID is a parameter of the model). -/
def writeSessionsStore (path uuid : Str) (data : SMap) : List (FsOp SMap) :=
  let tmpPath := path ++ s "." ++ uuid ++ s ".tmp"
  [FsOp.mkdirP (dirname path), FsOp.writeFile tmpPath data,
   FsOp.rename tmpPath path]

/-- `getLabelFromSessionStore` of src/session-json-store.ts.  The stored
`label_source` string is cast to the union type; any value other than
`"manual"` behaves as `auto` downstream, and the `updatedAt` default
(`new Date()`) is abstracted as `""`. -/
def getLabelFromSessionStore (file : Option SMap) (sessionKey : Str) :
    Option SessionLabel :=
  match objGet (readSessionsStore file) sessionKey with
  | none => none
  | some e =>
    match e.label with
    | none => none
    | some l =>
      if l = [] then none
      else
        some
          { label := l
            label_source :=
              if e.label_source = some (s "manual") then LabelSource.manual
              else LabelSource.auto
            label_turn := e.label_turn.getD 0
            label_version := (e.label_version).getD (s "1.0")
            label_updated_at := (e.label_updated_at).getD [] }

/-- State-level effect of one queued body of `setLabelInSessionStore`
(src/session-json-store.ts): read, merge the entry under `sessionKey`,
write. -/
def setLabelInSessionStore (file : Option SMap) (sessionKey : Str)
    (label : SessionLabel) : Option SMap :=
  let store := readSessionsStore file
  let entry := (objGet store sessionKey).getD {}
  some (objSet store sessionKey (mergeLabel entry label))

/-- State-level effect of one queued body of
`setLabelInSessionStoreBySessionId`: merge the label into every entry
whose `sessionId` equals the given id; the file is written only when at
least one entry matched. -/
def setLabelInSessionStoreBySessionId (file : Option SMap) (sessionId : Str)
    (label : SessionLabel) : Option SMap × Bool :=
  let store := readSessionsStore file
  let updated := store.any (fun p => decide (p.2.sessionId = some sessionId))
  if updated then
    (some (store.map (fun p =>
      if p.2.sessionId = some sessionId then (p.1, mergeLabel p.2 label)
      else p)), true)
  else (file, false)

/-! ### Interleaving semantics for concurrent `setLabel`

`labels-store.ts`'s `setLabel` has two suspension points that touch the
mapping: the `await readFile` inside `readLabels` and the `await
writeFile` inside `writeLabels`.  A task is therefore a two-step program:
step 0 snapshots the file, step 1 writes the snapshot merged with the
task's own key.  A schedule says which of two concurrent calls performs
its next step. -/

/-- Program counter and read snapshot of one in-flight `setLabel` call. -/
structure RmwTask where
  pc : Nat := 0
  snap : LMap := []
deriving DecidableEq

/-- One micro-step of an unqueued `setLabel path k v` call. -/
def stepSetLabel (k : Str) (v : SessionLabel) (file : Option LMap)
    (t : RmwTask) : Option LMap × RmwTask :=
  if t.pc = 0 then (file, { pc := 1, snap := readLabels file })
  else if t.pc = 1 then (some (objSet t.snap k v), { t with pc := 2 })
  else (file, t)

/-- Shared file plus the two in-flight calls. -/
structure RaceState where
  file : Option LMap := none
  t1 : RmwTask := {}
  t2 : RmwTask := {}
deriving DecidableEq

/-- Run two concurrent `setLabel` calls under a schedule (`true` = the
first call takes its next step). -/
def runRace (c1 c2 : Str × SessionLabel) : List Bool → RaceState → RaceState
  | [], st => st
  | b :: rest, st =>
    if b then
      let r := stepSetLabel c1.1 c1.2 st.file st.t1
      runRace c1 c2 rest { st with file := r.1, t1 := r.2 }
    else
      let r := stepSetLabel c2.1 c2.2 st.file st.t2
      runRace c1 c2 rest { st with file := r.1, t2 := r.2 }

/-- Fully serialized read-modify-write calls in arrival order: the effect
of `session-json-store.ts`'s module-level promise queue (`writeQueue`),
where each queued body completes its read, merge and write before the next
begins. -/
def setLabelSerialized (calls : List (Str × SessionLabel))
    (file : Option LMap) : Option LMap :=
  calls.foldl (fun f c => setLabel f c.1 c.2) file

/-! ## Hook handler (hooks/session-labeler/handler.ts)

`labelSession` is embedded from step 3 on (the already-labeled check):
sessions-directory and transcript resolution (steps 1-2) are host-path
heuristics outside the store model, so the ending session id and the
extracted user messages enter as parameters.  Logging is dropped; the
write path (`persistLabel`) is modelled exactly. -/

/-- `persistenceMode` values of `SessionLabelerConfig`. -/
inductive PMode where
  | session_json
  | labels_json
  | sidecar_labels_json
deriving DecidableEq

/-- `SessionLabelerConfig` of src/types.ts (the fields `labelSession` and
`persistLabel` consult; `triggerActions` and `allowSidecarFallback` only
affect the event guard and the error path of the host glue). -/
structure SessionLabelerConfig where
  triggerAfterRequests : Nat := 3
  maxMessagesForLabel : Nat := 5
  maxLabelChars : Nat := 28
  relabel : Bool := false
  persistenceMode : PMode := PMode.session_json
deriving DecidableEq

/-- `DEFAULT_CONFIG` of src/types.ts. -/
def DEFAULT_CONFIG : SessionLabelerConfig := {}

/-- The two durable files the handler touches. -/
structure StoreState where
  labelsFile : Option LMap := none
  sessionsFile : Option SMap := none
deriving DecidableEq

/-- `getExistingLabel` of handler.ts: in the labels-only modes the
sessions.json store is not consulted. -/
def getExistingLabel (config : SessionLabelerConfig) (st : StoreState)
    (sessionKey : Str) : Option SessionLabel :=
  if config.persistenceMode = PMode.labels_json ∨
      config.persistenceMode = PMode.sidecar_labels_json then none
  else getLabelFromSessionStore st.sessionsFile sessionKey

/-- `persistLabel` of handler.ts: always write `labels.json` under the
ending session id; in `session_json` mode additionally merge into every
sessions.json entry whose `sessionId` is the ending session id. -/
def persistLabel (config : SessionLabelerConfig) (st : StoreState)
    (sessionLabel : SessionLabel) (endingSessionId : Str) : StoreState :=
  let labelsOnly := config.persistenceMode = PMode.labels_json ∨
    config.persistenceMode = PMode.sidecar_labels_json
  let labels' := setLabel st.labelsFile endingSessionId sessionLabel
  if labelsOnly then { st with labelsFile := labels' }
  else
    { labelsFile := labels'
      sessionsFile :=
        (setLabelInSessionStoreBySessionId st.sessionsFile endingSessionId
          sessionLabel).1 }

/-- `labelSession` of handler.ts (steps 3-6): skip when already labeled
(unless `relabel`), skip below the turn threshold, otherwise generate a
label from the first `maxMessagesForLabel` messages and persist it with
`label_source = "auto"` under the ending session id.  `now` abstracts
`new Date().toISOString()`. -/
def labelSession (config : SessionLabelerConfig) (sessionKey : Str)
    (endingSessionId : Str) (userMessages : List Str)
    (llm : Str → Except Str Str) (now : Str) (st : StoreState) : StoreState :=
  let alreadyLabeled : Bool :=
    if config.relabel then false
    else
      (!decide (sessionKey = []) &&
        (getExistingLabel config st sessionKey).isSome) ||
      (getLabel st.labelsFile endingSessionId).isSome
  if alreadyLabeled then st
  else if userMessages.length < config.triggerAfterRequests then st
  else
    let messagesForLabel := userMessages.take config.maxMessagesForLabel
    let label := generateLabel llm
      { requests := messagesForLabel, max_chars := config.maxLabelChars }
    let sessionLabel : SessionLabel :=
      { label := label
        label_source := LabelSource.auto
        label_turn := config.triggerAfterRequests
        label_version := s "1.0"
        label_updated_at := now }
    persistLabel config st sessionLabel endingSessionId

/-! ## Helper lemmas -/

theorem objGet_objSet_self {α : Type} (m : List (Str × α)) (k : Str) (v : α) :
    objGet (objSet m k v) k = some v := by
  induction m with
  | nil => simp [objSet, objGet]
  | cons p rest ih =>
    rcases p with ⟨k', v'⟩
    by_cases h : k' = k
    · simp [objSet, objGet, h]
    · simp [objSet, objGet, h, ih]

theorem objGet_objSet_ne {α : Type} (m : List (Str × α)) (k : Str) (v : α)
    (k' : Str) (h : k' ≠ k) : objGet (objSet m k v) k' = objGet m k' := by
  induction m with
  | nil => simp [objSet, objGet, Ne.symm h]
  | cons p rest ih =>
    rcases p with ⟨k₀, v₀⟩
    by_cases h0 : k₀ = k
    · subst h0
      simp [objSet, objGet, Ne.symm h]
    · by_cases h1 : k₀ = k'
      · simp [objSet, objGet, h0, h1, h]
      · simp [objSet, objGet, h0, h1, ih]

theorem trimEnd_length_le (l : Str) : (trimEnd l).length ≤ l.length := by
  simp only [trimEnd, List.length_reverse]
  have := (List.dropWhile_sublist jsWs (l := l.reverse)).length_le
  simpa using this

theorem tryKeep_length_le (indexed : List (Nat × Str)) (maxChars : Nat) :
    ∀ k r, tryKeep indexed maxChars k = some r → r.length ≤ maxChars := by
  intro k
  induction k with
  | zero => intro r h; simp [tryKeep] at h
  | succ n ih =>
    intro r h
    simp only [tryKeep] at h
    split at h
    · cases h; assumption
    · exact ih r h

theorem enforceMaxLength_length_le (label : Str) (maxChars : Nat) :
    (enforceMaxLength label maxChars).length ≤ maxChars := by
  unfold enforceMaxLength
  split
  · simp
  split
  · assumption
  dsimp only
  split
  all_goals
    split
    · assumption
    split
    · assumption
    split
    · next r hr => exact tryKeep_length_le _ _ _ r hr
    · exact le_trans (trimEnd_length_le _) (by simp)

/-! ## Claim C3: length invariant of the Length Compressor -/

/-- C3: for every input string `text` and every `maxChars ≥ 1`, the length
of `enforceMaxLength text maxChars` is at most `maxChars`. -/
theorem compress_length_invariant (text : Str) (maxChars : Nat)
    (h : 1 ≤ maxChars) : (enforceMaxLength text maxChars).length ≤ maxChars :=
  enforceMaxLength_length_le text maxChars

/-- Witness for `compress_length_invariant` at a concrete over-long
input. -/
theorem compress_length_invariant_witness :
    1 ≤ 5 ∧
      (enforceMaxLength
        (s "The Configuration and Documentation for Performance") 5).length ≤ 5 :=
  ⟨by decide, compress_length_invariant _ 5 (by decide)⟩

/-! ## Claim C9: fallback guarantee of the Frequency Fallback Labeler -/

/-- C9: for every `maxChars ≥ 1`, `heuristicLabel` on the empty request
list and on `["hi","ok","yes"]` (all tokens of length ≤ 3) returns exactly
`"General"`. -/
theorem fallback_guarantee (maxChars : Nat) (h : 1 ≤ maxChars) :
    heuristicLabel ⟨[], none, maxChars⟩ = s "General" ∧
    heuristicLabel ⟨[s "hi", s "ok", s "yes"], none, maxChars⟩ = s "General" :=
  ⟨rfl, rfl⟩

/-- Witness for `fallback_guarantee` at `maxChars = 28`. -/
theorem fallback_guarantee_witness :
    1 ≤ 28 ∧
      (heuristicLabel ⟨[], none, 28⟩ = s "General" ∧
       heuristicLabel ⟨[s "hi", s "ok", s "yes"], none, 28⟩ = s "General") :=
  ⟨by decide, fallback_guarantee 28 (by decide)⟩

/-! ## Claim C10: frame property of setLabel -/

/-- A concrete label record for witnesses. -/
def mkLabel (t : String) : SessionLabel :=
  { label := s t
    label_source := LabelSource.auto
    label_turn := 3
    label_version := s "1.0"
    label_updated_at := s "2026-02-11T00:00:00Z" }

/-- C10: for every valid stored mapping `m` (unique keys), key `k` and
record `v`, after `setLabel` completes the stored mapping binds `k` to `v`
and leaves every other key's record unchanged. -/
theorem setLabel_frame (m : LMap) (k : Str) (v : SessionLabel)
    (hval : (m.map Prod.fst).Nodup) :
    objGet (readLabels (setLabel (some m) k v)) k = some v ∧
    ∀ k', k' ≠ k →
      objGet (readLabels (setLabel (some m) k v)) k' = objGet m k' := by
  constructor
  · simpa [setLabel, readLabels] using objGet_objSet_self m k v
  · intro k' hk
    simpa [setLabel, readLabels] using objGet_objSet_ne m k v k' hk

/-- Witness for `setLabel_frame` on a one-entry store, checking both the
update and the frame at an untouched key. -/
theorem setLabel_frame_witness :
    (([(s "session:a", mkLabel "Alpha")].map Prod.fst).Nodup ∧
      objGet (readLabels (setLabel (some [(s "session:a", mkLabel "Alpha")])
        (s "session:b") (mkLabel "Beta"))) (s "session:b") =
        some (mkLabel "Beta")) ∧
    objGet (readLabels (setLabel (some [(s "session:a", mkLabel "Alpha")])
      (s "session:b") (mkLabel "Beta"))) (s "session:a") =
      objGet [(s "session:a", mkLabel "Alpha")] (s "session:a") :=
  ⟨⟨by decide, (setLabel_frame _ _ _ (by decide)).1⟩,
   (setLabel_frame _ _ _ (by decide)).2 _ (by decide)⟩

/-! ## Claims C4 and C8: the Label Synthesizer -/

theorem heuristicLabel_cases (input : LabelerInput) :
    heuristicLabel input = s "General" ∨
      (heuristicLabel input ≠ [] ∧
        (heuristicLabel input).length ≤ input.max_chars) := by
  unfold heuristicLabel
  dsimp only
  split
  · exact Or.inl rfl
  · split
    · exact Or.inl rfl
    · next hne => exact Or.inr ⟨hne, enforceMaxLength_length_le _ _⟩

/-- C4 counterexample: with `maxChars = 1` and a failing candidate source,
`generateLabel` returns the literal `"General"`, whose length 7 exceeds
the budget — the claimed bound fails for `1 ≤ maxChars < 7`. -/
theorem synthesizer_budget_counterexample :
    generateLabel (fun _ => Except.error []) ⟨[], none, 1⟩ = s "General" ∧
      ¬((generateLabel (fun _ => Except.error []) ⟨[], none, 1⟩).length ≤ 1) :=
  ⟨rfl, by decide⟩

/-- C4 (amended): for every candidate source, request list and
`maxChars ≥ 7` (7 = length of `"General"`), the Synthesizer returns a
non-empty string of length at most `maxChars`, with the literal
`"General"` as the worst case; for smaller budgets `"General"` is returned
verbatim and may exceed `maxChars`. -/
theorem synthesizer_guarantee (llm : Str → Except Str Str)
    (input : LabelerInput) (h : 7 ≤ input.max_chars) :
    generateLabel llm input ≠ [] ∧
      (generateLabel llm input).length ≤ input.max_chars := by
  have hH : heuristicLabel input ≠ [] ∧
      (heuristicLabel input).length ≤ input.max_chars := by
    rcases heuristicLabel_cases input with hG | hh
    · rw [hG]
      exact ⟨by decide, h⟩
    · exact hh
  unfold generateLabel
  dsimp only
  split
  · exact hH
  · split
    · exact hH
    · next hne => exact ⟨hne, enforceMaxLength_length_le _ _⟩

/-- Witness for `synthesizer_guarantee` with a failing source at
`maxChars = 28`. -/
theorem synthesizer_guarantee_witness :
    generateLabel (fun _ => Except.error [])
        ⟨[s "Fix checkout taxes"], none, 28⟩ ≠ [] ∧
      (generateLabel (fun _ => Except.error [])
        ⟨[s "Fix checkout taxes"], none, 28⟩).length ≤ 28 :=
  synthesizer_guarantee _ _ (by decide)

/-- C8: whenever the candidate source fails (the `complete` call rejects,
for any reason), `generateLabel` catches the failure, performs no retry,
propagates no error, and returns exactly the heuristic fallback over the
same requests and `maxChars`. -/
theorem synthesizer_failure_fallback (llm : Str → Except Str Str)
    (input : LabelerInput) (hfail : ∀ p, ∃ e, llm p = Except.error e) :
    generateLabel llm input = heuristicLabel input := by
  unfold generateLabel
  dsimp only
  split
  · rfl
  · next raw heq =>
    obtain ⟨e, he⟩ := hfail _
    rw [he] at heq
    simp at heq

/-- Witness for `synthesizer_failure_fallback` with an always-failing
source. -/
theorem synthesizer_failure_fallback_witness :
    generateLabel (fun _ => Except.error (s "network"))
        ⟨[s "hello"], none, 28⟩ =
      heuristicLabel ⟨[s "hello"], none, 28⟩ :=
  synthesizer_failure_fallback _ _ (fun _ => ⟨s "network", rfl⟩)

/-! ## Claim C1: concurrent setLabel calls -/

/-- C1: evaluation at the failing input.  Two concurrent
`labels-store.ts` `setLabel` calls for the distinct keys `"session:a"`
and `"session:b"` under the interleaving read-read-write-write (possible
because that store has no ordering queue): the completed run drops
`"session:a"` — a lost update, contradicting the claimed serialization of
every pair of concurrent `setLabel` calls. -/
theorem setLabel_race_lost_update :
    objGet (readLabels (runRace (s "session:a", mkLabel "Alpha")
        (s "session:b", mkLabel "Beta") [true, false, true, false] {}).file)
      (s "session:a") = none ∧
    objGet (readLabels (runRace (s "session:a", mkLabel "Alpha")
        (s "session:b", mkLabel "Beta") [true, false, true, false] {}).file)
      (s "session:b") = some (mkLabel "Beta") := by decide

/-- The discipline the spec describes (and `session-json-store.ts`'s
`writeQueue` implements): when the two read-modify-write cycles run
serialized in arrival order, both keys survive, from any initial file. -/
theorem setLabelSerialized_no_lost_update (file : Option LMap)
    (k1 k2 : Str) (v1 v2 : SessionLabel) (h : k1 ≠ k2) :
    objGet (readLabels (setLabelSerialized [(k1, v1), (k2, v2)] file)) k1 =
      some v1 ∧
    objGet (readLabels (setLabelSerialized [(k1, v1), (k2, v2)] file)) k2 =
      some v2 := by
  constructor
  · simp only [setLabelSerialized, List.foldl, setLabel, readLabels,
      Option.getD_some]
    rw [objGet_objSet_ne _ _ _ _ h]
    exact objGet_objSet_self _ _ _
  · simp only [setLabelSerialized, List.foldl, setLabel, readLabels,
      Option.getD_some]
    exact objGet_objSet_self _ _ _

/-! ## Claim C2: write discipline of the durable label store -/

/-- C2: evaluation at the failing input.  `writeLabels` of
src/labels-store.ts issues a `mkdir -p` followed by a single direct
`writeFile` onto the target path: no freshly named temporary file and no
rename, contradicting the claimed temp-file-plus-atomic-rename discipline
for every completed store write. -/
theorem writeLabels_no_rename :
    writeLabels (s "/root/.openclaw/agents/main/sessions/labels.json")
        [(s "session:a", mkLabel "Alpha")] =
      [FsOp.mkdirP (s "/root/.openclaw/agents/main/sessions"),
       FsOp.writeFile (s "/root/.openclaw/agents/main/sessions/labels.json")
         [(s "session:a", mkLabel "Alpha")]] ∧
    (writeLabels (s "/root/.openclaw/agents/main/sessions/labels.json")
        [(s "session:a", mkLabel "Alpha")]).all
      (fun op => !op.isRename) = true := by decide

/-- `writeSessionsStore` of src/session-json-store.ts, by contrast, does
follow the discipline: full content to a fresh temporary name in the same
directory, then a rename of that name over the target, for every path,
uuid and store content (the temporary name is never the target). -/
theorem writeSessionsStore_atomic (path uuid : Str) (data : SMap) :
    writeSessionsStore path uuid data =
      [FsOp.mkdirP (dirname path),
       FsOp.writeFile (path ++ s "." ++ uuid ++ s ".tmp") data,
       FsOp.rename (path ++ s "." ++ uuid ++ s ".tmp") path] ∧
    path ++ s "." ++ uuid ++ s ".tmp" ≠ path := by
  refine ⟨rfl, ?_⟩
  intro h
  have hlen := congrArg List.length h
  have h1 : (s ".").length = 1 := rfl
  have h4 : (s ".tmp").length = 4 := rfl
  simp only [List.length_append, h1, h4] at hlen
  omega

/-! ## Claim C5: never-overwrite-manual -/

/-- A sessions.json entry carrying a manual label for the ending session
id, stored under a session key different from the event's key. -/
def manualEntry : SessionEntry :=
  { sessionId := some (s "S")
    label := some (s "Keep")
    label_source := some (s "manual") }

/-- Store state for the C5 failing input. -/
def manualState : StoreState :=
  { labelsFile := none, sessionsFile := some [(s "other", manualEntry)] }

/-- C5: evaluation at the failing input.  With `relabel = false` and the
default `session_json` mode, running the pipeline for ending session id
`"S"` overwrites the manual label stored under key `"other"` (whose
`sessionId` is `"S"`): the already-labeled check consults only the event's
session key and `labels.json[endingSessionId]`, while
`setLabelInSessionStoreBySessionId` rewrites every entry matching the
session id regardless of its `label_source`. -/
theorem labelSession_overwrites_manual :
    (objGet (readSessionsStore ((labelSession DEFAULT_CONFIG
          (s "agent:main:main") (s "S") [s "alpha", s "beta", s "gamma"]
          (fun _ => Except.error []) (s "T") manualState).sessionsFile))
        (s "other")).map SessionEntry.label_source =
      some (some (s "auto")) ∧
    manualEntry.label_source = some (s "manual") ∧
    DEFAULT_CONFIG.relabel = false := by decide

/-- The guard that does exist: in `session_json` mode, when the manual
label sits in the sessions.json entry of the event's own session key (with
a non-empty label text), the pipeline is a no-op. -/
theorem labelSession_guard_same_key (config : SessionLabelerConfig)
    (sessionKey endingSessionId : Str) (userMessages : List Str)
    (llm : Str → Except Str Str) (now : Str) (st : StoreState)
    (hr : config.relabel = false) (hk : sessionKey ≠ [])
    (hx : (getExistingLabel config st sessionKey).isSome) :
    labelSession config sessionKey endingSessionId userMessages llm now st =
      st := by
  unfold labelSession
  simp [hr, hk, hx]

/-! ## Claim C6: trailing whitespace -/

theorem dropWhile_head_false {p : Char → Bool} :
    ∀ (l : Str) (c : Char) (t : Str), l.dropWhile p = c :: t → p c = false := by
  intro l
  induction l with
  | nil => intro c t h; simp at h
  | cons x xs ih =>
    intro c t h
    by_cases hx : p x
    · rw [List.dropWhile_cons_of_pos hx] at h
      exact ih c t h
    · rw [List.dropWhile_cons_of_neg hx] at h
      cases h
      exact Bool.of_not_eq_true hx

theorem endsWs_trimEnd (l : Str) : endsWs (trimEnd l) = false := by
  unfold trimEnd endsWs
  cases h : l.reverse.dropWhile jsWs with
  | nil => simp
  | cons c t =>
    rw [List.getLast?_reverse]
    simpa using dropWhile_head_false l.reverse c t h

theorem endsWs_jsTrim (l : Str) : endsWs (jsTrim l) = false :=
  endsWs_trimEnd _

theorem splitWsGo_cons_ws_gap (c : Char) (r cur : Str) (hc : jsWs c = true) :
    splitWsGo true cur (c :: r) = splitWsGo true [] r := by
  simp [splitWsGo, hc]

theorem splitWsGo_cons_ws_tok (c : Char) (r cur : Str) (hc : jsWs c = true) :
    splitWsGo false cur (c :: r) = cur.reverse :: splitWsGo true [] r := by
  simp [splitWsGo, hc]

theorem splitWsGo_cons_nws (c : Char) (r : Str) (g : Bool) (cur : Str)
    (hc : jsWs c = false) :
    splitWsGo g cur (c :: r) = splitWsGo false (c :: cur) r := by
  simp [splitWsGo, hc]

theorem splitWsGo_ne_nil : ∀ (rest : Str) (g : Bool) (cur : Str),
    splitWsGo g cur rest ≠ [] := by
  intro rest
  induction rest with
  | nil => intro g cur; simp [splitWsGo]
  | cons c r ih =>
    intro g cur
    cases hc : jsWs c with
    | true =>
      cases g with
      | true => rw [splitWsGo_cons_ws_gap c r cur hc]; exact ih true []
      | false => rw [splitWsGo_cons_ws_tok c r cur hc]; simp
    | false =>
      rw [splitWsGo_cons_nws c r g cur hc]
      exact ih false (c :: cur)

theorem splitWsGo_noWs : ∀ (rest : Str) (g : Bool) (cur : Str),
    (∀ c ∈ cur, jsWs c = false) →
    ∀ w ∈ splitWsGo g cur rest, ∀ c ∈ w, jsWs c = false := by
  intro rest
  induction rest with
  | nil =>
    intro g cur hcur w hw
    simp only [splitWsGo, List.mem_singleton] at hw
    subst hw
    intro c hc
    exact hcur c (List.mem_reverse.1 hc)
  | cons c r ih =>
    intro g cur hcur w hw
    cases hc : jsWs c with
    | true =>
      cases g with
      | true =>
        rw [splitWsGo_cons_ws_gap c r cur hc] at hw
        exact ih true [] (by simp) w hw
      | false =>
        rw [splitWsGo_cons_ws_tok c r cur hc] at hw
        rcases List.mem_cons.1 hw with rfl | hw
        · intro x hx
          exact hcur x (List.mem_reverse.1 hx)
        · exact ih true [] (by simp) w hw
    | false =>
      rw [splitWsGo_cons_nws c r g cur hc] at hw
      refine ih false (c :: cur) ?_ w hw
      intro x hx
      rcases List.mem_cons.1 hx with rfl | hx
      · exact hc
      · exact hcur x hx

theorem splitWsGo_all_ne_nil : ∀ (rest : Str) (g : Bool) (cur : Str),
    (g = true → cur = [] ∧ rest ≠ []) →
    (g = false → cur ≠ []) →
    (∀ c, rest.getLast? = some c → jsWs c = false) →
    ∀ w ∈ splitWsGo g cur rest, w ≠ [] := by
  intro rest
  induction rest with
  | nil =>
    intro g cur hg hc _ w hw
    cases g with
    | true => exact absurd rfl (hg rfl).2
    | false =>
      simp only [splitWsGo, List.mem_singleton] at hw
      subst hw
      simpa using hc rfl
  | cons c r ih =>
    intro g cur hg hc hlast w hw
    have hrlast : r ≠ [] → ∀ c', r.getLast? = some c' → jsWs c' = false := by
      intro hr c' hc'
      apply hlast c'
      cases r with
      | nil => exact absurd rfl hr
      | cons r0 r1 => rw [List.getLast?_cons_cons]; exact hc'
    cases hcw : jsWs c with
    | true =>
      have hr : r ≠ [] := by
        intro hre
        subst hre
        have := hlast c rfl
        rw [hcw] at this
        cases this
      cases g with
      | true =>
        rw [splitWsGo_cons_ws_gap c r cur hcw] at hw
        exact ih true [] (fun _ => ⟨rfl, hr⟩) (by simp) (hrlast hr) w hw
      | false =>
        rw [splitWsGo_cons_ws_tok c r cur hcw] at hw
        rcases List.mem_cons.1 hw with rfl | hw
        · simpa using hc rfl
        · exact ih true [] (fun _ => ⟨rfl, hr⟩) (by simp) (hrlast hr) w hw
    | false =>
      rw [splitWsGo_cons_nws c r g cur hcw] at hw
      refine ih false (c :: cur) (by simp) (fun _ => by simp) ?_ w hw
      intro c' hc'
      cases r with
      | nil => simp at hc'
      | cons r0 r1 =>
        apply hlast c'
        rw [List.getLast?_cons_cons]
        exact hc'

theorem mem_of_getLast?_eq {l : Str} {c : Char} (h : l.getLast? = some c) :
    c ∈ l := by
  have ⟨hne, he⟩ := List.mem_getLast?_eq_getLast (l := l) (x := c) h
  exact he ▸ List.getLast_mem hne

theorem splitWs_noWs (l : Str) : ∀ w ∈ splitWs l, ∀ c ∈ w, jsWs c = false :=
  splitWsGo_noWs l false [] (by simp)

theorem splitWs_tail_ne_nil (l : Str) (h : endsWs l = false) :
    ∀ w ∈ (splitWs l).tail, w ≠ [] := by
  cases l with
  | nil => simp [splitWs, splitWsGo]
  | cons c r =>
    have hlast : ∀ c', (c :: r).getLast? = some c' → jsWs c' = false := by
      intro c' hc'
      unfold endsWs at h
      rw [hc'] at h
      exact h
    have hrlast : r ≠ [] → ∀ c', r.getLast? = some c' → jsWs c' = false := by
      intro hr c' hc'
      apply hlast c'
      cases r with
      | nil => exact absurd rfl hr
      | cons r0 r1 => rw [List.getLast?_cons_cons]; exact hc'
    cases hc : jsWs c with
    | true =>
      have hr : r ≠ [] := by
        intro hre
        subst hre
        have := hlast c (by simp)
        rw [hc] at this
        cases this
      unfold splitWs
      rw [splitWsGo_cons_ws_tok c r [] hc]
      simp only [List.reverse_nil, List.tail_cons]
      exact splitWsGo_all_ne_nil r true [] (fun _ => ⟨rfl, hr⟩) (by simp)
        (hrlast hr)
    | false =>
      unfold splitWs
      rw [splitWsGo_cons_nws c r false [] hc]
      intro w hw
      refine splitWsGo_all_ne_nil r false [c] (by simp) (fun _ => by simp)
        ?_ w (List.mem_of_mem_tail hw)
      intro c' hc'
      apply hrlast ?_ c' hc'
      intro hre
      subst hre
      simp at hc'

theorem joinWith_ne_nil (sep : Char) : ∀ ws : List Str, ws ≠ [] →
    (∀ w ∈ ws, w ≠ []) → joinWith sep ws ≠ []
  | [], h, _ => absurd rfl h
  | [w], _, hall => by simpa [joinWith] using hall w (by simp)
  | w :: x :: rest, _, _ => by simp [joinWith]

theorem endsWs_append_ne_nil (l₁ l₂ : Str) (h : l₂ ≠ []) :
    endsWs (l₁ ++ l₂) = endsWs l₂ := by
  unfold endsWs
  rw [List.getLast?_append]
  obtain ⟨c, hc⟩ : ∃ c, l₂.getLast? = some c := by
    cases hL : l₂.getLast? with
    | none => exact absurd (List.getLast?_eq_none_iff.1 hL) h
    | some c => exact ⟨c, rfl⟩
  rw [hc]
  rfl

theorem endsWs_joinSp : ∀ ws : List Str, (∀ w ∈ ws.tail, w ≠ []) →
    (∀ w ∈ ws, ∀ c ∈ w, jsWs c = false) → endsWs (joinSp ws) = false := by
  intro ws
  induction ws with
  | nil => intro _ _; rfl
  | cons w rest ih =>
    intro h1 h2
    cases rest with
    | nil =>
      show endsWs w = false
      cases hw : w.getLast? with
      | none => simp [endsWs, hw]
      | some c =>
        simp only [endsWs, hw]
        exact h2 w (by simp) c (mem_of_getLast?_eq hw)
    | cons x rest2 =>
      have htail : ∀ u ∈ x :: rest2, u ≠ [] := by
        intro u hu
        exact h1 u (by simpa using hu)
      have hJ : joinSp (x :: rest2) ≠ [] :=
        joinWith_ne_nil ' ' _ (by simp) htail
      have ih' : endsWs (joinSp (x :: rest2)) = false := by
        refine ih ?_ ?_
        · intro u hu
          exact htail u (List.mem_of_mem_tail hu)
        · intro u hu
          exact h2 u (List.mem_cons_of_mem w hu)
      have hsplit : joinSp (w :: x :: rest2) =
          (w ++ [' ']) ++ joinSp (x :: rest2) := by
        show joinWith ' ' (w :: x :: rest2) = _
        rw [show joinWith ' ' (w :: x :: rest2) =
          w ++ ' ' :: joinWith ' ' (x :: rest2) from rfl]
        exact List.append_cons w ' ' (joinWith ' ' (x :: rest2))
      rw [hsplit, endsWs_append_ne_nil _ _ hJ]
      exact ih'

/-- Token-list invariant carried through the Compressor stages: every
token is whitespace-free, and every token after the first is non-empty
(for inputs without trailing whitespace only a leading empty token, from
leading whitespace, can occur). -/
def goodToks (ws : List Str) : Prop :=
  (∀ w ∈ ws, ∀ c ∈ w, jsWs c = false) ∧ ∀ w ∈ ws.tail, w ≠ []

theorem goodToks_splitWs (l : Str) (h : endsWs l = false) :
    goodToks (splitWs l) := ⟨splitWs_noWs l, splitWs_tail_ne_nil l h⟩

theorem goodToks_filter (p : Str → Bool) (ws : List Str) (h : goodToks ws) :
    goodToks (ws.filter p) := by
  obtain ⟨h1, h2⟩ := h
  constructor
  · intro w hw
    exact h1 w (List.mem_of_mem_filter hw)
  · cases ws with
    | nil => simp
    | cons w rest =>
      have hrest : ∀ u ∈ rest.filter p, u ≠ [] := by
        intro u hu
        exact h2 u (by simpa using List.mem_of_mem_filter hu)
      by_cases hp : p w
      · rw [List.filter_cons_of_pos hp]
        intro u hu
        exact hrest u (by simpa using hu)
      · rw [List.filter_cons_of_neg hp]
        intro u hu
        exact hrest u (List.mem_of_mem_tail hu)

theorem abbr_vals : ∀ p ∈ ABBREVIATIONS, p.2 ≠ [] ∧ ∀ c ∈ p.2,
    jsWs c = false := by decide

theorem objGet_mem {α : Type} :
    ∀ (m : List (Str × α)) (k : Str) (v : α),
      objGet m k = some v → (k, v) ∈ m := by
  intro m
  induction m with
  | nil => intro k v h; simp [objGet] at h
  | cons p rest ih =>
    intro k v h
    rcases p with ⟨k', v'⟩
    simp only [objGet] at h
    split at h
    · next heq =>
      cases h
      rw [← heq]
      exact List.mem_cons_self _ _
    · exact List.mem_cons_of_mem _ (ih k v h)

theorem goodToks_abbrevMap (ws : List Str) (h : goodToks ws) :
    goodToks (ws.map (fun w =>
      match objGet ABBREVIATIONS (lowerStr w) with
      | some a => a
      | none => w)) := by
  have hel : ∀ w : Str, (∀ c ∈ w, jsWs c = false) →
      ∀ c ∈ (match objGet ABBREVIATIONS (lowerStr w) with
        | some a => a
        | none => w), jsWs c = false := by
    intro w hw
    cases hm : objGet ABBREVIATIONS (lowerStr w) with
    | none => simpa [hm] using hw
    | some a =>
      simp only [hm]
      exact (abbr_vals _ (objGet_mem _ _ _ hm)).2
  have hne : ∀ w : Str, w ≠ [] →
      (match objGet ABBREVIATIONS (lowerStr w) with
        | some a => a
        | none => w) ≠ [] := by
    intro w hw
    cases hm : objGet ABBREVIATIONS (lowerStr w) with
    | none => simpa [hm] using hw
    | some a =>
      simp only [hm]
      exact (abbr_vals _ (objGet_mem _ _ _ hm)).1
  constructor
  · intro u hu
    obtain ⟨w, hw, rfl⟩ := List.mem_map.1 hu
    exact hel w (h.1 w hw)
  · intro u hu
    rw [← List.map_tail] at hu
    obtain ⟨w, hw, rfl⟩ := List.mem_map.1 hu
    exact hne w (h.2 w hw)

instance : IsTotal (Nat × Str) idxOrd := ⟨fun a b => Nat.le_total a.1 b.1⟩

instance : IsTrans (Nat × Str) idxOrd := ⟨fun _ _ _ h1 h2 => Nat.le_trans h1 h2⟩

theorem pairs_snd_tail_ne_nil (ps : List (Nat × Str))
    (hs : List.Sorted idxOrd ps) (hn : (ps.map Prod.fst).Nodup)
    (hok : ∀ p ∈ ps, p.1 = 0 ∨ p.2 ≠ []) :
    ∀ w ∈ (ps.map Prod.snd).tail, w ≠ [] := by
  cases ps with
  | nil => simp
  | cons p rest =>
    simp only [List.map_cons, List.tail_cons]
    intro w hw hempty
    obtain ⟨r, hr, hrw⟩ := List.mem_map.1 hw
    rcases hok r (List.mem_cons_of_mem p hr) with h0 | hne
    · have hle : idxOrd p r := (List.sorted_cons.1 hs).1 r hr
      have hp0 : p.1 = 0 := by
        unfold idxOrd at hle
        omega
      have hnotin : p.1 ∉ rest.map Prod.fst := (List.nodup_cons.1 hn).1
      apply hnotin
      rw [hp0, ← h0]
      exact List.mem_map_of_mem Prod.fst hr
    · exact hne (hrw.trans hempty)

theorem keepSelect_endsWs (ws : List Str) (hws : goodToks ws) (keep : Nat) :
    endsWs (keepSelect ((ws.enum).insertionSort lenOrd) keep) = false := by
  unfold keepSelect
  have hmem : ∀ q ∈ (((ws.enum).insertionSort lenOrd).take keep).insertionSort
      idxOrd, ws[q.1]? = some q.2 := by
    intro q hq
    have h1 := (List.perm_insertionSort idxOrd _).mem_iff.1 hq
    have h2 := (List.take_sublist keep _).subset h1
    have h3 := (List.perm_insertionSort lenOrd _).mem_iff.1 h2
    obtain ⟨i, x⟩ := q
    exact List.mk_mem_enum_iff_getElem?.1 h3
  apply endsWs_joinSp
  · apply pairs_snd_tail_ne_nil
    · exact List.sorted_insertionSort idxOrd _
    · have h1 : (ws.enum.map Prod.fst).Nodup := by
        rw [List.enum_map_fst]
        exact List.nodup_range _
      have h2 : (((ws.enum).insertionSort lenOrd).map Prod.fst).Nodup :=
        (((List.perm_insertionSort lenOrd ws.enum).map Prod.fst).nodup_iff).2 h1
      have h3 := h2.sublist
        ((List.take_sublist keep ((ws.enum).insertionSort lenOrd)).map Prod.fst)
      exact (((List.perm_insertionSort idxOrd _).map Prod.fst).nodup_iff).2 h3
    · intro q hq
      rcases Nat.eq_zero_or_pos q.1 with h0 | hpos
      · exact Or.inl h0
      · right
        have hg := hmem q hq
        cases ws with
        | nil => simp at hg
        | cons w0 wt =>
          obtain ⟨i, hi⟩ := Nat.exists_eq_add_of_lt hpos
          rw [hi] at hg
          simp only [Nat.zero_add, List.getElem?_cons_succ] at hg
          exact hws.2 q.2 (List.getElem?_mem hg)
  · intro u hu c hc
    obtain ⟨q, hq, rfl⟩ := List.mem_map.1 hu
    exact hws.1 q.2 (List.getElem?_mem (hmem q hq)) c hc

theorem tryKeep_endsWs (indexed : List (Nat × Str)) (maxChars : Nat)
    (hall : ∀ keep, endsWs (keepSelect indexed keep) = false) :
    ∀ k r, tryKeep indexed maxChars k = some r → endsWs r = false := by
  intro k
  induction k with
  | zero => intro r h; simp [tryKeep] at h
  | succ n ih =>
    intro r h
    simp only [tryKeep] at h
    split at h
    · cases h; exact hall (n + 1)
    · exact ih r h

/-- C6 counterexample: an input already within the budget is returned
unchanged by the identity path, trailing whitespace included, so the
Compressor can return a string ending in whitespace. -/
theorem compress_trailing_ws_counterexample :
    enforceMaxLength (s "a ") 28 = s "a " ∧
      endsWs (enforceMaxLength (s "a ") 28) = true := by decide

/-- C6 (amended): the Normalizer never returns a string ending in
whitespace; the Compressor never returns one provided its input does not
itself end in whitespace (an input within the budget is returned verbatim,
so a trailing-whitespace input is the one exception). -/
theorem no_trailing_whitespace (raw label : Str) (maxChars : Nat)
    (h : endsWs label = false) :
    endsWs (sanitize raw) = false ∧
    endsWs (enforceMaxLength label maxChars) = false := by
  constructor
  · unfold sanitize
    split
    · rfl
    · dsimp only
      split
      · rfl
      · exact endsWs_jsTrim _
  · have hg0 : goodToks (splitWs label) := goodToks_splitWs label h
    have hg1 : goodToks ((splitWs label).filter
        (fun w => !decide (lowerStr w ∈ STOP_WORDS))) :=
      goodToks_filter _ _ hg0
    unfold enforceMaxLength
    split
    · rfl
    split
    · exact h
    dsimp only
    split
    · split
      · exact endsWs_joinSp _ hg1.2 hg1.1
      have hg2 := goodToks_abbrevMap _ hg1
      split
      · exact endsWs_joinSp _ hg2.2 hg2.1
      split
      · next r hr =>
        exact tryKeep_endsWs _ _ (fun keep => keepSelect_endsWs _ hg2 keep)
          _ r hr
      · exact endsWs_trimEnd _
    · split
      · exact endsWs_joinSp _ hg0.2 hg0.1
      have hg2 := goodToks_abbrevMap _ hg0
      split
      · exact endsWs_joinSp _ hg2.2 hg2.1
      split
      · next r hr =>
        exact tryKeep_endsWs _ _ (fun keep => keepSelect_endsWs _ hg2 keep)
          _ r hr
      · exact endsWs_trimEnd _

/-- Witness for `no_trailing_whitespace` at concrete inputs. -/
theorem no_trailing_whitespace_witness :
    endsWs (s "a  very long label to compress") = false ∧
      (endsWs (sanitize (s "  padded out  ")) = false ∧
       endsWs (enforceMaxLength (s "a  very long label to compress") 9) =
         false) :=
  ⟨by decide, no_trailing_whitespace _ _ 9 (by decide)⟩

/-! ## Claim C7: quote / bold stripping of the Normalizer -/

theorem dropWhile_of_head_false {p : Char → Bool} (l : Str)
    (h : ∀ c, l.head? = some c → p c = false) : l.dropWhile p = l := by
  cases l with
  | nil => rfl
  | cons c r =>
    apply List.dropWhile_cons_of_neg
    simp [h c rfl]

theorem dropWhile_append_all {p : Char → Bool} (l₁ l₂ : Str)
    (h : ∀ c ∈ l₁, p c = true) :
    (l₁ ++ l₂).dropWhile p = l₂.dropWhile p := by
  induction l₁ with
  | nil => rfl
  | cons c r ih =>
    rw [List.cons_append, List.dropWhile_cons_of_pos (by simp [h c (by simp)])]
    exact ih (fun x hx => h x (List.mem_cons_of_mem c hx))

theorem takeWhile_of_head_false {p : Char → Bool} (l : Str)
    (h : ∀ c, l.head? = some c → p c = false) : l.takeWhile p = [] := by
  cases l with
  | nil => rfl
  | cons c r =>
    apply List.takeWhile_cons_of_neg
    simp [h c rfl]

theorem takeWhile_append_all {p : Char → Bool} (l₁ l₂ : Str)
    (h : ∀ c ∈ l₁, p c = true) :
    (l₁ ++ l₂).takeWhile p = l₁ ++ l₂.takeWhile p := by
  induction l₁ with
  | nil => rfl
  | cons c r ih =>
    rw [List.cons_append, List.takeWhile_cons_of_pos (by simp [h c (by simp)]),
      ih (fun x hx => h x (List.mem_cons_of_mem c hx)), List.cons_append]

theorem dropWhile_no_ws (u : Str) (hu : ∀ c ∈ u, jsWs c = false) :
    u.dropWhile jsWs = u := by
  cases u with
  | nil => rfl
  | cons x r => exact List.dropWhile_cons_of_neg (by simp [hu x (by simp)])

theorem jsTrim_id (l : Str) (h : ∀ c ∈ l, jsWs c = false) : jsTrim l = l := by
  unfold jsTrim trimStart trimEnd
  rw [dropWhile_no_ws l h]
  rw [dropWhile_no_ws l.reverse (fun c hc => h c (List.mem_reverse.1 hc)),
    List.reverse_reverse]

theorem splitLines_id (l : Str) (h : ∀ c ∈ l, jsWs c = false) :
    splitLines l = [l] := by
  induction l with
  | nil => rfl
  | cons c r ih =>
    have hc : jsWs c = false := h c (by simp)
    have hn : c ≠ '\n' := by
      intro hh
      subst hh
      simp [jsWs] at hc
    have hcr : c ≠ '\r' := by
      intro hh
      subst hh
      simp [jsWs] at hc
    have hr := ih (fun x hx => h x (List.mem_cons_of_mem c hx))
    unfold splitLines
    rw [if_neg hn, if_neg hcr, hr]
    rfl

theorem firstNonBlankLine_id (l : Str) (hne : l ≠ [])
    (h : ∀ c ∈ l, jsWs c = false) : firstNonBlankLine l = l := by
  unfold firstNonBlankLine
  rw [splitLines_id l h]
  simp [List.find?, jsTrim_id l h, hne]

theorem stripBullet_id (l : Str) (h : ∀ c ∈ l, jsWs c = false) :
    stripBullet l = l := by
  cases l with
  | nil => rfl
  | cons c r =>
    cases r with
    | nil => rfl
    | cons c2 rest =>
      have hc2 : jsWs c2 = false := h c2 (by simp)
      simp [stripBullet, hc2]

theorem map_tab_id (l : Str) (h : ∀ c ∈ l, jsWs c = false) :
    l.map (fun c => if c = '\t' then ' ' else c) = l := by
  induction l with
  | nil => rfl
  | cons c r ih =>
    have hc : jsWs c = false := h c (by simp)
    have : c ≠ '\t' := by
      intro hh
      subst hh
      simp [jsWs] at hc
    simp only [List.map_cons, if_neg this]
    rw [ih (fun x hx => h x (List.mem_cons_of_mem c hx))]

theorem collapseRunsGo_id {p : Char → Bool} (rep : Char) : ∀ (l : Str),
    (∀ c ∈ l, p c = false) → ∀ g, collapseRunsGo p rep g l = l := by
  intro l
  induction l with
  | nil => intro _ g; rfl
  | cons c r ih =>
    intro h g
    have hc : p c = false := h c (by simp)
    simp only [collapseRunsGo, hc, Bool.false_eq_true, if_false]
    rw [ih (fun x hx => h x (List.mem_cons_of_mem c hx)) false]

theorem collapseRuns_id {p : Char → Bool} (rep : Char) (l : Str)
    (h : ∀ c ∈ l, p c = false) : collapseRuns p rep l = l :=
  collapseRunsGo_id rep l h false

theorem stripTrailingPunct_id (l : Str)
    (h : ∀ c, l.getLast? = some c → isPunct c = false) :
    stripTrailingPunct l = l := by
  unfold stripTrailingPunct
  split
  · next c rest heq =>
    rw [if_neg]
    have : l.getLast? = some c := by
      rw [← List.head?_reverse, heq]
      rfl
    simp [h c this]
  · rfl

theorem collapseSpaces_id (l : Str) (h : ∀ c ∈ l, jsWs c = false) :
    collapseSpaces l = l := by
  unfold collapseSpaces
  apply collapseRuns_id
  intro c hc
  have := h c hc
  simp only [decide_eq_false_iff_not]
  intro hsp
  subst hsp
  simp [jsWs] at this

theorem isQuote_not_ws (c : Char) (h : isQuote c = true) : jsWs c = false := by
  have : (c = '"' ∨ c = '\'') ∨ c = '\x60' := by
    simpa [isQuote] using h
  rcases this with (rfl | rfl) | rfl <;> rfl

theorem getLast?_append_right (l₁ l₂ : Str) (h : l₂ ≠ []) :
    (l₁ ++ l₂).getLast? = l₂.getLast? := by
  rw [List.getLast?_append]
  obtain ⟨c, hc⟩ : ∃ c, l₂.getLast? = some c := by
    cases hL : l₂.getLast? with
    | none => exact absurd (List.getLast?_eq_none_iff.1 hL) h
    | some c => exact ⟨c, rfl⟩
  rw [hc]
  rfl

theorem stripQuotes_sandwich (pre core post : Str) (hcore : core ≠ [])
    (hpre : ∀ c ∈ pre, isQuote c = true) (hpost : ∀ c ∈ post, isQuote c = true)
    (hh : ∀ c, core.head? = some c → isQuote c = false)
    (hl : ∀ c, core.getLast? = some c → isQuote c = false) :
    stripQuotes (pre ++ core ++ post) = core := by
  unfold stripQuotes
  rw [List.append_assoc, dropWhile_append_all pre _ hpre]
  rw [dropWhile_of_head_false (core ++ post) ?hfst]
  case hfst =>
    intro c hc
    obtain ⟨h0, ct, rfl⟩ := List.exists_cons_of_ne_nil hcore
    rw [List.cons_append] at hc
    cases hc
    exact hh _ rfl
  rw [List.reverse_append]
  rw [dropWhile_append_all post.reverse _
    (fun c hcp => hpost c (List.mem_reverse.1 hcp))]
  rw [dropWhile_of_head_false core.reverse ?hsnd]
  case hsnd =>
    intro c hc
    rw [List.head?_reverse] at hc
    exact hl c hc
  exact List.reverse_reverse core

theorem stripBold_id_of (l : Str) (hne : l ≠ [])
    (hh : ∀ c, l.head? = some c → c ≠ '*')
    (hl : ∀ c, l.getLast? = some c → c ≠ '*') :
    stripBold l = l := by
  unfold stripBold
  rw [takeWhile_of_head_false l (fun c hc => by simp [hh c hc])]
  simp only [List.length_nil, Nat.min_zero, List.drop_zero]
  rw [takeWhile_of_head_false l.reverse (fun c hc => by
    rw [List.head?_reverse] at hc
    simp [hl c hc])]
  simp only [List.length_nil, Nat.min_zero, List.drop_zero]
  exact List.reverse_reverse l

theorem stripBold_stars (core : Str) (n m : Nat) (hcore : core ≠ [])
    (hh : ∀ c, core.head? = some c → c ≠ '*')
    (hl : ∀ c, core.getLast? = some c → c ≠ '*') :
    stripBold (List.replicate n '*' ++ core ++ List.replicate m '*') =
      List.replicate (n - 2) '*' ++ core ++ List.replicate (m - 2) '*' := by
  have hstar : ∀ (k : Nat) (c : Char), c ∈ List.replicate k '*' →
      decide (c = '*') = true := by
    intro k c hc
    simp [List.eq_of_mem_replicate hc]
  have hcps : ∀ c, (core ++ List.replicate m '*').head? = some c →
      decide (c = '*') = false := by
    intro c hc
    obtain ⟨h0, ct, rfl⟩ := List.exists_cons_of_ne_nil hcore
    rw [List.cons_append] at hc
    cases hc
    simp [hh _ rfl]
  unfold stripBold
  dsimp only
  rw [List.append_assoc, takeWhile_append_all _ _ (hstar n),
    takeWhile_of_head_false _ hcps, List.append_nil, List.length_replicate]
  rw [List.drop_append_of_le_length (by simp), List.drop_replicate]
  have hn2 : n - min 2 n = n - 2 := by omega
  rw [hn2]
  rw [List.reverse_append, List.reverse_replicate, List.reverse_append,
    List.reverse_replicate, List.append_assoc]
  have hcrs : ∀ c, (core.reverse ++ List.replicate (n - 2) '*').head? =
      some c → decide (c = '*') = false := by
    intro c hc
    obtain ⟨c0, ct, hrev⟩ : ∃ c0 ct, core.reverse = c0 :: ct := by
      have : core.reverse ≠ [] := by simpa using hcore
      exact List.exists_cons_of_ne_nil this
    rw [hrev, List.cons_append] at hc
    simp only [List.head?_cons, Option.some.injEq] at hc
    subst hc
    have hgl : core.getLast? = some c0 := by
      rw [← List.head?_reverse, hrev]
      rfl
    simp [hl c0 hgl]
  rw [takeWhile_append_all _ _ (hstar m), takeWhile_of_head_false _ hcrs,
    List.append_nil, List.length_replicate]
  rw [List.drop_append_of_le_length (by simp), List.drop_replicate]
  have hm2 : m - min 2 m = m - 2 := by omega
  rw [hm2]
  rw [List.reverse_append, List.reverse_append, List.reverse_replicate,
    List.reverse_replicate, List.reverse_reverse, List.append_assoc]

/-- C7 counterexample: the Normalizer strips a quote with no matching
character at the other end, and strips several layers at once — both
contradicting the claimed single symmetric layer. -/
theorem normalizer_strip_counterexample :
    sanitize (s "\"Label") = s "Label" ∧
      sanitize (s "\"Label") ≠ s "\"Label" ∧
      sanitize (s "\"\"X\"\"") = s "X" := by decide

/-- C7 (amended): the Normalizer strips ALL surrounding quote characters
(`"`, `'`, backtick) from each end independently — any number of layers,
also when the other end has no matching character — and strips up to two
asterisks from each end independently: for a core with no whitespace,
whose first character is neither a quote nor an asterisk and whose last
character is neither a quote, an asterisk, nor trailing punctuation,
wrapping in arbitrary quote runs yields the bare core, and wrapping in
asterisk runs of lengths `n`, `m` leaves runs of `n - 2`, `m - 2`. -/
theorem normalizer_strip_behavior (core pre post : Str) (n m : Nat)
    (hcore : core ≠ [])
    (hnws : ∀ c ∈ core, jsWs c = false)
    (hpre : ∀ c ∈ pre, isQuote c = true)
    (hpost : ∀ c ∈ post, isQuote c = true)
    (hhead : ∀ c, core.head? = some c → isQuote c = false ∧ c ≠ '*')
    (hlast : ∀ c, core.getLast? = some c →
      isQuote c = false ∧ c ≠ '*' ∧ isPunct c = false) :
    sanitize (pre ++ core ++ post) = core ∧
    sanitize (List.replicate n '*' ++ core ++ List.replicate m '*') =
      List.replicate (n - 2) '*' ++ core ++ List.replicate (m - 2) '*' := by
  constructor
  · have hallu : ∀ c ∈ pre ++ core ++ post, jsWs c = false := by
      intro c hc
      rcases List.mem_append.1 hc with hc' | hc'
      · rcases List.mem_append.1 hc' with hc'' | hc''
        · exact isQuote_not_ws c (hpre c hc'')
        · exact hnws c hc''
      · exact isQuote_not_ws c (hpost c hc')
    have hune : pre ++ core ++ post ≠ [] := by simp [hcore]
    unfold sanitize
    rw [if_neg hune]
    dsimp only
    rw [firstNonBlankLine_id _ hune hallu, jsTrim_id _ hallu, if_neg hune]
    rw [stripBullet_id _ hallu, map_tab_id _ hallu, collapseSpaces_id _ hallu]
    rw [stripQuotes_sandwich pre core post hcore hpre hpost
      (fun c hc => (hhead c hc).1) (fun c hc => (hlast c hc).1)]
    rw [stripBold_id_of core hcore (fun c hc => (hhead c hc).2)
      (fun c hc => (hlast c hc).2.1)]
    rw [jsTrim_id core hnws]
    rw [stripTrailingPunct_id core (fun c hc => (hlast c hc).2.2)]
    exact jsTrim_id core hnws
  · have hallv : ∀ c ∈ List.replicate n '*' ++ core ++ List.replicate m '*',
        jsWs c = false := by
      intro c hc
      rcases List.mem_append.1 hc with hc' | hc'
      · rcases List.mem_append.1 hc' with hc'' | hc''
        · rw [List.eq_of_mem_replicate hc'']; rfl
        · exact hnws c hc''
      · rw [List.eq_of_mem_replicate hc']; rfl
    have hvne : List.replicate n '*' ++ core ++ List.replicate m '*' ≠ [] := by
      simp [hcore]
    have hvq : ∀ c, (List.replicate n '*' ++ core ++
        List.replicate m '*').head? = some c → isQuote c = false := by
      intro c hc
      cases n with
      | zero =>
        obtain ⟨h0, ct, rfl⟩ := List.exists_cons_of_ne_nil hcore
        simp only [List.replicate_zero, List.nil_append, List.cons_append,
          List.head?_cons, Option.some.injEq] at hc
        subst hc
        exact (hhead h0 rfl).1
      | succ k =>
        simp only [List.replicate_succ, List.cons_append, List.head?_cons,
          Option.some.injEq] at hc
        subst hc
        rfl
    have hstars : ∀ (k : Nat) (c : Char), c ∈ List.replicate k '*' →
        isQuote c = true → False := by
      intro k c hc hq
      rw [List.eq_of_mem_replicate hc] at hq
      simp [isQuote] at hq
    have hsq : stripQuotes (List.replicate n '*' ++ core ++
        List.replicate m '*') = List.replicate n '*' ++ core ++
        List.replicate m '*' := by
      unfold stripQuotes
      rw [dropWhile_of_head_false _ hvq]
      rw [dropWhile_of_head_false _ ?hq2]
      case hq2 =>
        intro c hc
        rw [List.head?_reverse] at hc
        rw [List.append_assoc, getLast?_append_right _
          (core ++ List.replicate m '*') (by simp [hcore])] at hc
        cases m with
        | zero =>
          rw [List.replicate_zero, List.append_nil] at hc
          exact (hlast c hc).1
        | succ k =>
          rw [getLast?_append_right _ _ (by simp)] at hc
          have := mem_of_getLast?_eq hc
          rw [List.eq_of_mem_replicate this]
          rfl
      exact List.reverse_reverse _
    unfold sanitize
    rw [if_neg hvne]
    dsimp only
    rw [firstNonBlankLine_id _ hvne hallv, jsTrim_id _ hallv, if_neg hvne]
    rw [stripBullet_id _ hallv, map_tab_id _ hallv, collapseSpaces_id _ hallv]
    rw [hsq]
    rw [stripBold_stars core n m hcore (fun c hc => (hhead c hc).2)
      (fun c hc => (hlast c hc).2.1)]
    have hresall : ∀ c ∈ List.replicate (n - 2) '*' ++ core ++
        List.replicate (m - 2) '*', jsWs c = false := by
      intro c hc
      rcases List.mem_append.1 hc with hc' | hc'
      · rcases List.mem_append.1 hc' with hc'' | hc''
        · rw [List.eq_of_mem_replicate hc'']; rfl
        · exact hnws c hc''
      · rw [List.eq_of_mem_replicate hc']; rfl
    rw [jsTrim_id _ hresall]
    rw [stripTrailingPunct_id _ ?hp]
    case hp =>
      intro c hc
      rw [List.append_assoc, getLast?_append_right _
        (core ++ List.replicate (m - 2) '*') (by simp [hcore])] at hc
      cases hm : m - 2 with
      | zero =>
        rw [hm, List.replicate_zero, List.append_nil] at hc
        exact (hlast c hc).2.2
      | succ k =>
        rw [hm, getLast?_append_right _ _ (by simp)] at hc
        have := mem_of_getLast?_eq hc
        rw [List.eq_of_mem_replicate this]
        rfl
    exact jsTrim_id _ hresall

/-- Witness for `normalizer_strip_behavior`: one leading quote, two
trailing mixed quotes, and asterisk runs of lengths 3 and 1. -/
theorem normalizer_strip_behavior_witness :
    sanitize (s "\x27" ++ s "Label" ++ s "\x60\x22") = s "Label" ∧
    sanitize (List.replicate 3 '*' ++ s "Label" ++ List.replicate 1 '*') =
      List.replicate 1 '*' ++ s "Label" ++ List.replicate 0 '*' :=
  normalizer_strip_behavior (s "Label") (s "\x27") (s "\x60\x22") 3 1
    (by decide) (by decide) (by decide) (by decide) (by decide) (by decide)

end OpenClawLabeler
